import Mathlib

/-!
Verification of the jenkins_export repository against its natural-language
specification.  The Go sources are shallowly embedded: pure helpers become
Lean functions, the SQLite catalogue becomes an explicit `Catalogue` record
threaded through the operations, the Prometheus gauge vector becomes a list
of samples, and the on-demand collector's trigger discipline becomes a
labelled transition system.  Every definition is translated from the Go
source files named in its doc comment.
-/

namespace JenkinsExport

/-! ## Status decoder (pkg/internal/jenkins/collector.go, `parseBuildStatus`) -/

/-- Embeds `parseBuildStatus` from collector.go (identical copy in the
on-demand collector source): `building` wins, then the four literal results,
then empty means not built, anything else is unknown. -/
def parseBuildStatus (result : String) (building : Bool) : String :=
  if building then "in_progress"
  else if result = "SUCCESS" then "success"
  else if result = "FAILURE" then "failure"
  else if result = "ABORTED" then "aborted"
  else if result = "UNSTABLE" then "unstable"
  else if result = "" then "not_built"
  else "unknown"

/-- The seven status labels permitted by the specification (§4.4.1). -/
def permittedStatusLabels : List String :=
  ["success", "failure", "aborted", "unstable", "in_progress", "not_built", "unknown"]

/-- Modelled from the spec: the `decode(result, building)` pseudocode of
§4.4.1, written independently of the source for the refinement comparison. -/
def decodeSpec (result : String) (building : Bool) : String :=
  if building then "in_progress"
  else if result = "SUCCESS" then "success"
  else if result = "FAILURE" then "failure"
  else if result = "ABORTED" then "aborted"
  else if result = "UNSTABLE" then "unstable"
  else if result = "" then "not_built"
  else "unknown"

/-! ## String splitting

Go's `strings.Split(s, "/")` with its one-character separator: cut at every
separator character, keeping empty pieces, so the result is never the empty
list (`Split("", "/")` is `[""]`).  It is defined over the character list
so that it evaluates by kernel reduction. -/

/-- Split a character list at every occurrence of `sep`, keeping empty
groups; the result is always non-empty. -/
def splitOnCharList (sep : Char) : List Char → List (List Char)
  | [] => [[]]
  | c :: rest =>
    if c = sep then [] :: splitOnCharList sep rest
    else
      match splitOnCharList sep rest with
      | [] => [[c]]
      | group :: groups => (c :: group) :: groups

/-- Embeds `strings.Split(s, "/")`. -/
def splitSlash (s : String) : List String :=
  (splitOnCharList '/' s.data).map (fun cs => String.mk cs)

/-- Embeds `strings.Contains(s, "/")` (one-character needle). -/
def containsSlash (s : String) : Bool :=
  s.data.contains '/'

/-! ## Exclusion set (three code sites) -/

/-- Embeds the package-level `excludedFolders` map of sdk_client.go. -/
def sdkExcludedFolders : List String :=
  ["prod-ebpay-new", "pre-ebpay-new", "prod-gray-ebpay"]

/-- Embeds the local `excludedFolders` map inside `isExcludedFolder`
(collector.go and the on-demand collector source agree verbatim). -/
def collectorExcludedFolders : List String :=
  ["prod-ebpay-new", "pre-ebpay-new", "prod-gray-ebpay"]

/-- Embeds the local `excludedFolders` map inside the SDK-based
`syncJobsOnce` (Discovery). -/
def discoveryExcludedFolders : List String :=
  ["prod-ebpay-new", "pre-ebpay-new", "prod-gray-ebpay"]

/-- Embeds `isExcludedFolder` from collector.go: split the job name on "/"
and look the first segment up in the hard-coded map.  (`strings.Split`
never returns an empty slice, and neither does `splitSlash`, so the
`len(parts) > 0` guard of the Go code corresponds to the cons case.) -/
def isExcludedFolder (jobName : String) : Bool :=
  match splitSlash jobName with
  | [] => false
  | topLevelFolder :: _ => collectorExcludedFolders.contains topLevelFolder

/-- Embeds the inline exclusion check of the SDK-based `syncJobsOnce`
(Discovery): first `/`-separated segment membership in its local map. -/
def discoveryExcludedCheck (fullName : String) : Bool :=
  match splitSlash fullName with
  | [] => false
  | topLevelFolder :: _ => discoveryExcludedFolders.contains topLevelFolder

/-- Embeds the exclusion check of `recursiveGetJobsWithPathMap`
(sdk_client.go): first `/`-separated segment membership in the
package-level map.  (The root-level check in `GetAllJobsRecursive` compares
the whole top-level name, which is its own first segment.) -/
def sdkExcludedCheck (fullName : String) : Bool :=
  match splitSlash fullName with
  | [] => false
  | topLevelFolder :: _ => sdkExcludedFolders.contains topLevelFolder

/-- The first `/`-separated segment of a path (empty string for the
impossible empty split). -/
def firstSegment (path : String) : String :=
  (splitSlash path).headD ""

/-! ## SDK path conversion (Discovery source, `convertJobPathForSDK`) -/

/-- Embeds `convertJobPathForSDK`: if the full name contains a `/`, split it
on `/` and re-join the parts with the literal `/job/` between consecutive
parts; otherwise return the name unchanged. -/
def convertJobPathForSDK (fullName : String) : String :=
  if containsSlash fullName then
    match splitSlash fullName with
    | [] => fullName
    | p :: rest => rest.foldl (fun acc part => acc ++ "/job/" ++ part) p
  else fullName

/-- Joining a list of segments with a separator, written as the plain
recursive join used to state what `convertJobPathForSDK` produces. -/
def joinSep (sep : String) : List String → String
  | [] => ""
  | [p] => p
  | p :: q :: rest => p ++ sep ++ joinSep sep (q :: rest)

/-! ## Catalogue store (pkg/internal/storage/job_repo.go) -/

/-- Embeds the `jobs` table row (storage.Job / the `jobs` schema):
`job_name` primary key, `enabled`, `last_seen_build`, nullable
`last_sync_time`, `created_at`.  Instants are unix seconds as `Int`. -/
structure JobRow where
  jobName : String
  enabled : Bool
  lastSeenBuild : Int
  lastSyncTime : Option Int
  createdAt : Int
deriving DecidableEq

/-- Embeds a `job_changes` audit row: `job_name`, `action`, `event_time`. -/
structure ChangeEvent where
  jobName : String
  action : String
  eventTime : Int
deriving DecidableEq

/-- The catalogue database: the `jobs` table (rows in insertion order,
`job_name` unique by primary key) and the append-only `job_changes` log. -/
structure Catalogue where
  jobs : List JobRow
  changes : List ChangeEvent
deriving DecidableEq

/-- The empty database right after `createTables`. -/
def emptyCatalogue : Catalogue := ⟨[], []⟩

/-- Embeds `jobExistsInTx`: does any row (enabled or not) carry this name? -/
def jobExists (c : Catalogue) (jobName : String) : Bool :=
  c.jobs.any (fun r => r.jobName = jobName)

/-- Embeds `listEnabledJobsInTx` (and the row set of `ListEnabledJobs`):
all rows with `enabled = 1`.  The `ORDER BY job_name` of `ListEnabledJobs`
only reorders the snapshot and is dropped here; no claim depends on it. -/
def listEnabledJobs (c : Catalogue) : List JobRow :=
  c.jobs.filter (fun r => r.enabled)

/-- Embeds `UpdateLastSeen`: `UPDATE jobs SET last_seen_build = ? WHERE
job_name = ?`; a missing row makes it a warned no-op. -/
def updateLastSeen (jobName : String) (buildNumber : Int) (c : Catalogue) : Catalogue :=
  { c with jobs := c.jobs.map (fun r =>
      if r.jobName = jobName then { r with lastSeenBuild := buildNumber } else r) }

/-- One iteration of the first `SyncJobs` loop for one observed name: insert
the row (enabled, cursor 0, both times `now`) plus an `ADD` audit row when
the name is absent, otherwise bump `last_sync_time`. -/
def syncInsertStep (now : Int) (c : Catalogue) (jobName : String) : Catalogue :=
  if jobExists c jobName then
    { c with jobs := c.jobs.map (fun r =>
        if r.jobName = jobName then { r with lastSyncTime := some now } else r) }
  else
    { jobs := c.jobs ++ [⟨jobName, true, 0, some now, now⟩],
      changes := c.changes ++ [⟨jobName, "ADD", now⟩] }

/-- One iteration of the second `SyncJobs` loop for one previously enabled
name: soft-delete (`enabled = 0`) plus a `DELETE` audit row when the name is
not in the observed set. -/
def syncDeleteStep (now : Int) (jobNames : List String) (c : Catalogue)
    (existingName : String) : Catalogue :=
  if jobNames.contains existingName then c
  else
    { jobs := c.jobs.map (fun r =>
        if r.jobName = existingName then { r with enabled := false } else r),
      changes := c.changes ++ [⟨existingName, "DELETE", now⟩] }

/-- Embeds `SyncJobs` (job_repo.go) in its all-statements-succeed run: take
the enabled snapshot, run the insert/touch loop over the observed names,
then the soft-delete loop over the snapshot names missing from the observed
set, all against one database state (one transaction). -/
def syncJobs (now : Int) (jobNames : List String) (c : Catalogue) : Catalogue :=
  let existingNames := (listEnabledJobs c).map (fun r => r.jobName)
  let afterInserts := jobNames.foldl (syncInsertStep now) c
  existingNames.foldl (syncDeleteStep now jobNames) afterInserts

/-! ## Discovery cycle (discovery.go and the SDK-based Discovery source) -/

/-- Embeds the tail of `syncJobsOnce` shared by both Discovery variants:
when the extracted name list is empty the function logs a warning and
returns nil WITHOUT calling `SyncJobs`; otherwise it calls `SyncJobs`. -/
def syncJobsOnce (now : Int) (jobNames : List String) (c : Catalogue) : Catalogue :=
  if jobNames.isEmpty then c
  else syncJobs now jobNames c

/-- One job as the SDK-based Discovery observes it before filtering: the
full name carried by the traversal's path map and whether the node was
(re-)classified as a folder. -/
structure ObservedJob where
  fullName : String
  isFolder : Bool

/-- Embeds the name-extraction loop of the SDK-based `syncJobsOnce`: skip
empty names, skip folder-classified nodes, skip names whose top-level
segment is excluded, and store `convertJobPathForSDK` of what remains. -/
def discoveryJobNames (observed : List ObservedJob) : List String :=
  observed.foldl
    (fun jobNames job =>
      if job.fullName = "" then jobNames
      else if job.isFolder then jobNames
      else if discoveryExcludedCheck job.fullName then jobNames
      else jobNames ++ [convertJobPathForSDK job.fullName])
    []

/-- Embeds one whole cycle of the SDK-based `syncJobsOnce` after a
successful listing: extract the names, then the empty-guarded sync. -/
def discoveryCycle (now : Int) (observed : List ObservedJob) (c : Catalogue) : Catalogue :=
  syncJobsOnce now (discoveryJobNames observed) c

/-! ## `SyncJobs` with statement failures (job_repo.go error paths)

`SyncJobs` runs every statement through `tx.Exec`/`tx.Query`; the oracle
below says which of those calls fail.  Insert, touch and soft-delete
failures make the method return the error (the deferred `tx.Rollback`
undoes the transaction); a failed `recordJobChange` is only logged and the
loop continues; `Begin`, the snapshot query and `Commit` can fail too. -/

/-- Which statements of one `SyncJobs` call fail. -/
structure ExecOracle where
  beginFails : Bool
  listFails : Bool
  insertFails : String → Bool
  touchFails : String → Bool
  softDeleteFails : String → Bool
  auditFails : String → String → Bool
  commitFails : Bool

/-- The oracle for a run in which every statement succeeds. -/
def honestOracle : ExecOracle :=
  ⟨false, false, fun _ => false, fun _ => false, fun _ => false, fun _ _ => false, false⟩

/-- The insert/touch loop under the oracle.  A failed insert or touch aborts
the call; a failed `ADD` audit insert is tolerated and merely skips the
append. -/
def syncInsertRun (o : ExecOracle) (now : Int) :
    List String → Catalogue → Except String Catalogue
  | [], c => .ok c
  | jobName :: rest, c =>
    if jobExists c jobName then
      if o.touchFails jobName then .error "touch"
      else syncInsertRun o now rest
        { c with jobs := c.jobs.map (fun r =>
            if r.jobName = jobName then { r with lastSyncTime := some now } else r) }
    else
      if o.insertFails jobName then .error "insert"
      else
        let inserted := c.jobs ++ [⟨jobName, true, 0, some now, now⟩]
        if o.auditFails jobName "ADD" then
          syncInsertRun o now rest { jobs := inserted, changes := c.changes }
        else
          syncInsertRun o now rest
            { jobs := inserted, changes := c.changes ++ [⟨jobName, "ADD", now⟩] }

/-- The soft-delete loop under the oracle.  A failed soft-delete aborts the
call; a failed `DELETE` audit insert is tolerated. -/
def syncDeleteRun (o : ExecOracle) (now : Int) (jobNames : List String) :
    List String → Catalogue → Except String Catalogue
  | [], c => .ok c
  | existingName :: rest, c =>
    if jobNames.contains existingName then syncDeleteRun o now jobNames rest c
    else
      if o.softDeleteFails existingName then .error "softDelete"
      else
        let disabled := c.jobs.map (fun r =>
          if r.jobName = existingName then { r with enabled := false } else r)
        if o.auditFails existingName "DELETE" then
          syncDeleteRun o now jobNames rest { jobs := disabled, changes := c.changes }
        else
          syncDeleteRun o now jobNames rest
            { jobs := disabled, changes := c.changes ++ [⟨existingName, "DELETE", now⟩] }

/-- Embeds a full `SyncJobs` call under the oracle: the returned catalogue
is what a reader observes after the call (rolled back to the original on
any aborting failure), the Bool is whether the call returned nil. -/
def syncJobsRun (o : ExecOracle) (now : Int) (jobNames : List String)
    (c : Catalogue) : Catalogue × Bool :=
  if o.beginFails then (c, false)
  else if o.listFails then (c, false)
  else
    let existingNames := (listEnabledJobs c).map (fun r => r.jobName)
    match syncInsertRun o now jobNames c with
    | .error _ => (c, false)
    | .ok afterInserts =>
      match syncDeleteRun o now jobNames existingNames afterInserts with
      | .error _ => (c, false)
      | .ok afterDeletes =>
        if o.commitFails then (c, false) else (afterDeletes, true)

/-! ## Gauge vector (prometheus GaugeVec as used by the collector) -/

/-- Embeds the metric name passed to `prometheus.NewGaugeVec` in
`NewBuildCollector`. -/
def metricName : String := "jenkins_build_last_result"

/-- Embeds the label-name slice passed to `prometheus.NewGaugeVec` in
`NewBuildCollector` (identical in both collector variants). -/
def metricLabelNames : List String :=
  ["job_name", "check_commitID", "gitBranch", "status"]

/-- One sample of the gauge vector: the four label values and the value. -/
structure Sample where
  jobName : String
  checkCommitID : String
  gitBranch : String
  status : String
  value : Int
deriving DecidableEq

/-- Embeds `DeletePartialMatch(prometheus.Labels{"job_name": name})`:
remove every sample whose `job_name` label equals `name`, whatever its
other labels. -/
def deletePartialMatch (jobName : String) (g : List Sample) : List Sample :=
  g.filter (fun s => !(s.jobName = jobName : Bool))

/-- Embeds `WithLabelValues(...).Set(v)`: overwrite the sample carrying
exactly this label tuple, or append a fresh one when none exists. -/
def setSample (jobName checkCommitID gitBranch status : String) (v : Int)
    (g : List Sample) : List Sample :=
  if g.any (fun s =>
      s.jobName = jobName ∧ s.checkCommitID = checkCommitID ∧
      s.gitBranch = gitBranch ∧ s.status = status) then
    g.map (fun s =>
      if s.jobName = jobName ∧ s.checkCommitID = checkCommitID ∧
         s.gitBranch = gitBranch ∧ s.status = status then
        { s with value := v } else s)
  else g ++ [⟨jobName, checkCommitID, gitBranch, status, v⟩]

/-- How many samples of the gauge carry this `job_name` label. -/
def countFor (jobName : String) (g : List Sample) : Nat :=
  (g.filter (fun s => s.jobName = jobName)).length

/-! ## Collector cycle (collector.go / on-demand collector, `processJob`
and `collectOnce`)

The two Jenkins gateway calls a worker makes are modelled by a per-job
environment: what `GetLastCompletedBuild` returns, and what
`GetBuildDetails` returns for the fetched build. -/

/-- Outcome of `SDK.GetLastCompletedBuild` for one job: cancellation, an
error matching the folder/permission/HTML tests, any other error, "no
completed build" (nil build), or a build with its number plus the base
snapshot's result string and running flag (used by the fallback). -/
inductive FetchResult where
  | canceled : FetchResult
  | folderAuthErr : FetchResult
  | otherErr : FetchResult
  | noBuild : FetchResult
  | ok : Int → String → Bool → FetchResult

/-- Outcome of `SDK.GetBuildDetails`: the details (result, building,
parameter map), cancellation, or a non-cancellation error (which makes
`processJob` fall back to the base snapshot with empty parameters). -/
inductive DetailsResult where
  | ok : String → Bool → List (String × String) → DetailsResult
  | canceled : DetailsResult
  | err : DetailsResult

/-- The gateway's answers for one job in one cycle. -/
structure JobEnv where
  fetch : FetchResult
  details : DetailsResult

/-- Go map lookup with the zero value for a missing key. -/
def lookupParam (params : List (String × String)) (key : String) : String :=
  ((params.find? (fun p => p.1 = key)).map (fun p => p.2)).getD ""

/-- Embeds the gauge write and `last_seen_build` decision of `processJob`
once the details are in hand: decode the status, take `check_commitID`
falling back to `GIT_COMMIT` and `gitBranch` falling back to `GIT_BRANCH`,
then — in one critical section under the vector's write lock — delete every
sample of this `job_name` and set the single fresh sample to 1.0.  The
returned option is the `UpdateLastSeen` call, made only when the fetched
build number strictly exceeds the snapshot's `last_seen_build`. -/
def processJobWrite (j : JobRow) (buildNumber : Int) (result : String)
    (building : Bool) (params : List (String × String)) (g : List Sample) :
    List Sample × Option Int :=
  let status := parseBuildStatus result building
  let checkCommitID :=
    let c0 := lookupParam params "check_commitID"
    if c0 = "" then lookupParam params "GIT_COMMIT" else c0
  let gitBranch :=
    let b0 := lookupParam params "gitBranch"
    if b0 = "" then lookupParam params "GIT_BRANCH" else b0
  let gauge := setSample j.jobName checkCommitID gitBranch status 1
    (deletePartialMatch j.jobName g)
  (gauge, if buildNumber > j.lastSeenBuild then some buildNumber else none)

/-- Embeds `processJob` for one job: cancellation and errors leave the
gauge untouched; a nil build writes the single `not_built` sample with
empty commit and branch; otherwise the details (or the base-snapshot
fallback on a details error) feed `processJobWrite`. -/
def processJob (env : JobEnv) (j : JobRow) (g : List Sample) :
    List Sample × Option Int :=
  match env.fetch with
  | .canceled => (g, none)
  | .folderAuthErr => (g, none)
  | .otherErr => (g, none)
  | .noBuild =>
    (setSample j.jobName "" "" "not_built" 1 (deletePartialMatch j.jobName g), none)
  | .ok buildNumber baseResult baseBuilding =>
    match env.details with
    | .canceled => (g, none)
    | .ok result building params => processJobWrite j buildNumber result building params g
    | .err => processJobWrite j buildNumber baseResult baseBuilding [] g

/-- One job's turn inside the `collectOnce` loop: run `processJob` on the
current gauge and apply its `UpdateLastSeen` call, if any, to the
catalogue. -/
def collectStep (envs : String → JobEnv) (acc : List Sample × Catalogue)
    (j : JobRow) : List Sample × Catalogue :=
  let step := processJob (envs j.jobName) j acc.1
  (step.1,
    match step.2 with
    | some buildNumber => updateLastSeen j.jobName buildNumber acc.2
    | none => acc.2)

/-- The exclusion pass of `collectOnce`: evict the gauge samples of every
excluded snapshot job. -/
def evictExcluded (jobs : List JobRow) (g : List Sample) : List Sample :=
  jobs.foldl
    (fun acc j => if isExcludedFolder j.jobName then deletePartialMatch j.jobName acc else acc) g

/-- Embeds `collectOnce`: snapshot the enabled rows, evict the gauge
samples of every excluded job and drop those jobs, then process the
remaining jobs, threading the gauge and the catalogue (each worker's
`UpdateLastSeen` hits the single-writer store).  The concurrent fan-out of
the on-demand variant touches disjoint `job_name`s, so this sequential fold
is its linearisation. -/
def collectOnce (envs : String → JobEnv) (c : Catalogue) (g : List Sample) :
    List Sample × Catalogue :=
  let jobs := listEnabledJobs c
  let afterEvict := evictExcluded jobs g
  let filteredJobs := jobs.filter (fun j => !isExcludedFolder j.jobName)
  filteredJobs.foldl (collectStep envs) (afterEvict, c)

/-! ## Whole-process traces over the catalogue

Discovery cycles and Collector cycles are the only writers of the
catalogue; a trace interleaves them (the SQLite store is single-writer, so
any concurrent execution linearises into such a trace). -/

/-- One catalogue-writing operation of the process. -/
inductive Op where
  | discover : Int → List ObservedJob → Op
  | collect : (String → JobEnv) → Op

/-- The catalogue after one operation. -/
def stepOp (c : Catalogue) : Op → Catalogue
  | .discover now observed => discoveryCycle now observed c
  | .collect envs => (collectOnce envs c []).2

/-- The catalogue after a trace of operations. -/
def runOps (c : Catalogue) : List Op → Catalogue
  | [] => c
  | op :: rest => runOps (stepOp c op) rest

/-- The `last_seen_build` cursor of a job, when its row exists. -/
def getLastSeen (jobName : String) (c : Catalogue) : Option Int :=
  (c.jobs.find? (fun r => r.jobName = jobName)).map (fun r => r.lastSeenBuild)

/-- The primary-key invariant: every `job_name` names at most one row. -/
def NamesNodup (c : Catalogue) : Prop :=
  (c.jobs.map (fun r => r.jobName)).Nodup

/-! ## On-demand trigger discipline (on-demand collector source,
`triggerCollectionIfNeeded` / `collectOnceAsync`)

Each mutex-protected section of the Go code is one atomic transition of
this labelled transition system.  `slot` is the occupancy of the
one-element `collectTrigger` channel, `inFlight` counts cycles between the
`collecting = true` flip and its deferred reset. -/

/-- The trigger-relevant state of the on-demand collector. -/
structure TriggerState where
  collecting : Bool
  lastCollectTime : Int
  slot : Bool
  inFlight : Nat
deriving DecidableEq

/-- The state right after `NewBuildCollector`. -/
def initialTriggerState : TriggerState :=
  ⟨false, 0, false, 0⟩

/-- The minimum inter-cycle gap of `triggerCollectionIfNeeded`
(`5*time.Second`, counted here in seconds). -/
def minCollectGap : Int := 5

/-- The events acting on the trigger state: a scrape calling
`triggerCollectionIfNeeded` at time `t`, the worker goroutine taking the
channel slot and entering `collectOnceAsync`, and the deferred epilogue of
a cycle finishing at time `t`. -/
inductive TriggerEvent where
  | trigger : Int → TriggerEvent
  | workerStart : TriggerEvent
  | workerFinish : Int → TriggerEvent

/-- Embeds the three mutex-protected sections.  `trigger`: return while
`collecting`, return under the minimum gap, else a non-blocking send into
the one-slot channel.  `workerStart`: take the slot; `collectOnceAsync`
returns at once when `collecting`, else flips it and a cycle becomes
in-flight.  `workerFinish`: the deferred block resets `collecting` and
stamps `lastCollectTime`. -/
def triggerStep (s : TriggerState) : TriggerEvent → TriggerState
  | .trigger t =>
    if s.collecting then s
    else if t - s.lastCollectTime < minCollectGap then s
    else if s.slot then s
    else { s with slot := true }
  | .workerStart =>
    if !s.slot then s
    else if s.collecting then { s with slot := false }
    else { s with slot := false, collecting := true, inFlight := s.inFlight + 1 }
  | .workerFinish t =>
    if s.collecting then
      { s with collecting := false, lastCollectTime := t, inFlight := s.inFlight - 1 }
    else s

/-- The trigger state after a list of events. -/
def triggerRun (s : TriggerState) : List TriggerEvent → TriggerState
  | [] => s
  | e :: rest => triggerRun (triggerStep s e) rest

/-! ## Helper lemmas -/

/-- Joining one literal separator step commutes with `joinSep`. -/
theorem joinSep_append_left (sep p q : String) (t : List String) :
    joinSep sep ((p ++ sep ++ q) :: t) = p ++ sep ++ joinSep sep (q :: t) := by
  cases t with
  | nil => rfl
  | cons u t₂ => simp [joinSep, String.append_assoc]

/-- The left fold of `convertJobPathForSDK` is `joinSep "/job/"`. -/
theorem foldl_joinSep (sep : String) (rest : List String) (p : String) :
    rest.foldl (fun acc part => acc ++ sep ++ part) p = joinSep sep (p :: rest) := by
  induction rest generalizing p with
  | nil => rfl
  | cons q t ih => rw [List.foldl_cons, ih, joinSep_append_left]; rfl

/-- The name-extraction fold of the SDK-based Discovery, with an arbitrary
accumulator, is the filter-then-map of the kept observed jobs. -/
theorem discoveryJobNames_foldl (observed : List ObservedJob) (acc : List String) :
    observed.foldl
      (fun jobNames job =>
        if job.fullName = "" then jobNames
        else if job.isFolder then jobNames
        else if discoveryExcludedCheck job.fullName then jobNames
        else jobNames ++ [convertJobPathForSDK job.fullName])
      acc
      = acc ++ (observed.filter (fun j =>
          !(j.fullName = "" : Bool) && !j.isFolder && !(discoveryExcludedCheck j.fullName))).map
            (fun j => convertJobPathForSDK j.fullName) := by
  induction observed generalizing acc with
  | nil => simp
  | cons j rest ih =>
    by_cases h₁ : j.fullName = ""
    · simp [h₁, ih]
    · by_cases h₂ : j.isFolder
      · simp [h₁, h₂, ih]
      · by_cases h₃ : discoveryExcludedCheck j.fullName
        · simp [h₁, h₂, h₃, ih]
        · simp [h₁, h₂, h₃, ih]

/-! ## Claim C6 — status decoder -/

/-- C6: the status decoder is total and deterministic: for every
`(result, building)` it returns exactly one of the seven permitted labels,
it agrees with the spec's `decode` pseudocode (so `building` takes
precedence, the four literal results map to their lowercase labels, the
empty result maps to `not_built` and anything else to `unknown`), and it
never returns `queued`. -/
theorem parseBuildStatus_total (result : String) (building : Bool) :
    parseBuildStatus result building ∈ permittedStatusLabels ∧
    parseBuildStatus result building = decodeSpec result building ∧
    (building = true → parseBuildStatus result building = "in_progress") ∧
    ¬ parseBuildStatus result building = "queued" := by
  refine ⟨?_, rfl, fun h => by simp [parseBuildStatus, h], ?_⟩ <;>
    (unfold parseBuildStatus; split_ifs <;> decide)

/-- Witness for C6 at `("SUCCESS", true)`. -/
theorem parseBuildStatus_total_witness :
    parseBuildStatus "SUCCESS" true = "in_progress" ∧
    parseBuildStatus "SUCCESS" true ∈ permittedStatusLabels :=
  ⟨(parseBuildStatus_total "SUCCESS" true).2.2.1 rfl,
   (parseBuildStatus_total "SUCCESS" true).1⟩

/-! ## Claim C10 — hard-coded exclusion set -/

/-- C10: the exclusion set is the fixed hard-coded three-element set
`{prod-ebpay-new, pre-ebpay-new, prod-gray-ebpay}`, identical in the
Discovery filter, the Collector eviction check and the SDK traversal (none
of the three sites reads configuration: each is a literal map in the
source), and a job path is excluded iff its first `/`-separated segment is
one of the three names. -/
theorem exclusion_set_hardcoded (path : String) :
    collectorExcludedFolders = ["prod-ebpay-new", "pre-ebpay-new", "prod-gray-ebpay"] ∧
    discoveryExcludedFolders = collectorExcludedFolders ∧
    sdkExcludedFolders = collectorExcludedFolders ∧
    discoveryExcludedCheck path = isExcludedFolder path ∧
    sdkExcludedCheck path = isExcludedFolder path ∧
    isExcludedFolder path = collectorExcludedFolders.contains (firstSegment path) := by
  refine ⟨rfl, rfl, rfl, rfl, rfl, ?_⟩
  unfold isExcludedFolder firstSegment
  rcases h : splitSlash path with _ | ⟨head, tail⟩
  · decide
  · simp

/-! ## Claim C1 — empty observed set -/

/-- A one-row catalogue with an enabled job, for the C1 counterexample. -/
def c1Catalogue : Catalogue := ⟨[⟨"team-a/build-api", true, 7, some 1, 1⟩], []⟩

/-- C1 counterexample: against a catalogue holding one enabled row, a
Discovery cycle observing the empty set leaves the catalogue untouched — it
does NOT soft-delete the row or append a `DELETE` event, because
`syncJobsOnce` returns before calling `SyncJobs` when the extracted name
list is empty. -/
theorem emptyObserved_counterexample :
    syncJobsOnce 100 [] c1Catalogue = c1Catalogue ∧
    ¬ ((syncJobsOnce 100 [] c1Catalogue).jobs.all (fun r => r.enabled = false) = true ∧
       (syncJobsOnce 100 [] c1Catalogue).changes.countP (fun e => e.action = "DELETE") = 1) := by
  decide

/-- C1 amended: a Discovery cycle whose listing succeeds with an empty
observed job set performs no sync at all: `syncJobsOnce` warns and returns
without calling `SyncJobs`, so no row is soft-deleted and no `DELETE`
change event is appended, whatever the catalogue holds. -/
theorem emptyObserved_skips_sync (now : Int) (observed : List ObservedJob)
    (c : Catalogue) (h : discoveryJobNames observed = []) :
    discoveryCycle now observed c = c ∧ syncJobsOnce now [] c = c := by
  constructor
  · unfold discoveryCycle
    rw [h]
    simp [syncJobsOnce]
  · simp [syncJobsOnce]

/-- Witness for the amended C1 at the empty observation against the
one-row catalogue. -/
theorem emptyObserved_skips_sync_witness :
    discoveryCycle 100 [] c1Catalogue = c1Catalogue ∧
    syncJobsOnce 100 [] c1Catalogue = c1Catalogue :=
  emptyObserved_skips_sync 100 [] c1Catalogue rfl

/-! ## Claim C3 — stored paths versus Jenkins `fullName` -/

/-- One nested job as the traversal reports it, for the C3 counterexample:
Jenkins `fullName` is `uat/pre-wallet-server`. -/
def c3Observed : List ObservedJob := [⟨"uat/pre-wallet-server", false⟩]

/-- C3 counterexample: a Discovery cycle that observes the job whose
Jenkins `fullName` is `uat/pre-wallet-server` stores the catalogue row
`uat/job/pre-wallet-server` — an extra `job` segment is inserted, so the
stored `job_path` does not equal `fullName`. -/
theorem stored_path_not_fullName :
    (discoveryCycle 100 c3Observed emptyCatalogue).jobs.map (fun r => r.jobName)
      = ["uat/job/pre-wallet-server"] ∧
    ¬ (discoveryCycle 100 c3Observed emptyCatalogue).jobs.map (fun r => r.jobName)
      = ["uat/pre-wallet-server"] := by
  decide

/-- C3 amended: the SDK-based Discovery stores
`convertJobPathForSDK fullName` rather than `fullName` itself: the list of
stored names is exactly the conversion of every kept observed `fullName`,
the conversion re-joins the `/`-separated segments of `fullName` with the
literal `/job/` separator, and only a `fullName` without any `/` (a
top-level job) is stored verbatim. -/
theorem discovery_stores_sdk_paths (observed : List ObservedJob)
    (fullName p : String) (rest : List String)
    (hsplit : splitSlash fullName = p :: rest) :
    discoveryJobNames observed
      = (observed.filter (fun j =>
          !(j.fullName = "" : Bool) && !j.isFolder && !(discoveryExcludedCheck j.fullName))).map
          (fun j => convertJobPathForSDK j.fullName) ∧
    (containsSlash fullName = true →
      convertJobPathForSDK fullName = joinSep "/job/" (p :: rest)) ∧
    (containsSlash fullName = false → convertJobPathForSDK fullName = fullName) := by
  refine ⟨?_, ?_, ?_⟩
  · unfold discoveryJobNames
    rw [discoveryJobNames_foldl]
    simp
  · intro hcontains
    unfold convertJobPathForSDK
    rw [if_pos hcontains, hsplit]
    exact foldl_joinSep "/job/" rest p
  · intro hcontains
    unfold convertJobPathForSDK
    rw [if_neg (by simp [hcontains])]

/-- Witness for the amended C3 on the single nested observation. -/
theorem discovery_stores_sdk_paths_witness :
    discoveryJobNames c3Observed
      = (c3Observed.filter (fun j =>
          !(j.fullName = "" : Bool) && !j.isFolder && !(discoveryExcludedCheck j.fullName))).map
          (fun j => convertJobPathForSDK j.fullName) ∧
    (containsSlash "uat/pre-wallet-server" = true →
      convertJobPathForSDK "uat/pre-wallet-server"
        = joinSep "/job/" ("uat" :: ["pre-wallet-server"])) ∧
    (containsSlash "uat/pre-wallet-server" = false →
      convertJobPathForSDK "uat/pre-wallet-server" = "uat/pre-wallet-server") :=
  discovery_stores_sdk_paths c3Observed "uat/pre-wallet-server" "uat"
    ["pre-wallet-server"] (by decide)

/-! ## Claim C5 — single-flight on-demand collection -/

/-- The single-flight invariant: a cycle is in flight exactly while the
`collecting` flag is up. -/
def TriggerInv (s : TriggerState) : Prop :=
  s.inFlight = (if s.collecting then 1 else 0)

/-- Each trigger event preserves the single-flight invariant. -/
theorem triggerStep_inv (s : TriggerState) (e : TriggerEvent)
    (h : TriggerInv s) : TriggerInv (triggerStep s e) := by
  unfold TriggerInv at h ⊢
  cases e with
  | trigger t =>
    simp only [triggerStep]
    by_cases hc : s.collecting = true
    · simp only [if_pos hc]
      simp_all
    · simp only [if_neg hc]
      by_cases hg : t - s.lastCollectTime < minCollectGap
      · simp only [if_pos hg]
        simp_all
      · simp only [if_neg hg]
        by_cases hs : s.slot = true
        · simp only [if_pos hs]
          simp_all
        · simp only [if_neg hs]
          simp_all
  | workerStart =>
    simp only [triggerStep]
    by_cases h1 : (!s.slot) = true
    · simp only [if_pos h1]
      simp_all
    · simp only [if_neg h1]
      by_cases hc : s.collecting = true
      · simp only [if_pos hc]
        simp_all
      · simp only [if_neg hc]
        simp [hc] at h
        simp [h]
  | workerFinish t =>
    simp only [triggerStep]
    by_cases hc : s.collecting = true
    · simp only [if_pos hc]
      simp [hc] at h
      simp [h]
    · simp only [if_neg hc]
      simp_all

/-- Every run of trigger events preserves the single-flight invariant. -/
theorem triggerRun_inv (events : List TriggerEvent) (s : TriggerState)
    (h : TriggerInv s) : TriggerInv (triggerRun s events) := by
  induction events generalizing s with
  | nil => exact h
  | cons e rest ih => exact ih _ (triggerStep_inv s e h)

/-- C5: at most one collection cycle is ever in flight, a trigger arriving
while `collecting` is true changes nothing (no second concurrent cycle
starts, no channel send happens), and a trigger arriving within the
5-second minimum gap of `lastCollectTime` is dropped without starting a
cycle. -/
theorem onDemand_single_flight (events : List TriggerEvent)
    (s : TriggerState) (t : Int) (h : TriggerInv s) :
    (triggerRun s events).inFlight ≤ 1 ∧
    TriggerInv (triggerRun s events) ∧
    (s.collecting = true → triggerStep s (.trigger t) = s) ∧
    (s.collecting = false → t - s.lastCollectTime < minCollectGap →
      triggerStep s (.trigger t) = s) := by
  have hrun := triggerRun_inv events s h
  refine ⟨?_, hrun, ?_, ?_⟩
  · unfold TriggerInv at hrun
    rw [hrun]
    split_ifs <;> simp
  · intro hc
    simp [triggerStep, hc]
  · intro hc hgap
    simp [triggerStep, hc, hgap]

/-- Witness for C5 from the initial state: two scrapes, a worker start and
a finish keep at most one cycle in flight, and a trigger 3 seconds after
`lastCollectTime` is dropped. -/
theorem onDemand_single_flight_witness :
    (triggerRun ⟨false, 10, false, 0⟩
      [.trigger 20, .workerStart, .trigger 21, .workerFinish 22]).inFlight ≤ 1 ∧
    TriggerInv (triggerRun ⟨false, 10, false, 0⟩
      [.trigger 20, .workerStart, .trigger 21, .workerFinish 22]) ∧
    ((false : Bool) = true →
      triggerStep ⟨false, 10, false, 0⟩ (.trigger 13) = ⟨false, 10, false, 0⟩) ∧
    ((false : Bool) = false → (13 : Int) - 10 < minCollectGap →
      triggerStep ⟨false, 10, false, 0⟩ (.trigger 13) = ⟨false, 10, false, 0⟩) :=
  onDemand_single_flight [.trigger 20, .workerStart, .trigger 21, .workerFinish 22]
    ⟨false, 10, false, 0⟩ 13 rfl

/-! ## Claim C7 — metric shape -/

/-- Every sample of the gauge carries the fixed value 1.0. -/
def AllValuesOne (g : List Sample) : Prop := ∀ s ∈ g, s.value = 1

theorem allValuesOne_delete (n : String) (g : List Sample)
    (h : AllValuesOne g) : AllValuesOne (deletePartialMatch n g) := by
  intro s hs
  exact h s (List.mem_of_mem_filter hs)

theorem allValuesOne_set (n a b st : String) (g : List Sample)
    (h : AllValuesOne g) : AllValuesOne (setSample n a b st 1 g) := by
  intro s hs
  unfold setSample at hs
  split_ifs at hs
  · rcases List.mem_map.mp hs with ⟨r, hr, rfl⟩
    split_ifs
    · rfl
    · exact h r hr
  · rcases List.mem_append.mp hs with hg | hnew
    · exact h s hg
    · rw [List.mem_singleton.mp hnew]

theorem allValuesOne_processJobWrite (j : JobRow) (bn : Int) (res : String)
    (bld : Bool) (params : List (String × String)) (g : List Sample)
    (h : AllValuesOne g) : AllValuesOne (processJobWrite j bn res bld params g).1 := by
  unfold processJobWrite
  exact allValuesOne_set _ _ _ _ _ (allValuesOne_delete _ _ h)

theorem allValuesOne_processJob (env : JobEnv) (j : JobRow) (g : List Sample)
    (h : AllValuesOne g) : AllValuesOne (processJob env j g).1 := by
  unfold processJob
  cases hf : env.fetch with
  | canceled => exact h
  | folderAuthErr => exact h
  | otherErr => exact h
  | noBuild => exact allValuesOne_set _ _ _ _ _ (allValuesOne_delete _ _ h)
  | ok bn baseResult baseBuilding =>
    cases hd : env.details with
    | canceled => exact h
    | ok result building params => exact allValuesOne_processJobWrite _ _ _ _ _ _ h
    | err => exact allValuesOne_processJobWrite _ _ _ _ _ _ h

theorem allValuesOne_evict (jobs : List JobRow) (g : List Sample)
    (h : AllValuesOne g) : AllValuesOne (evictExcluded jobs g) := by
  induction jobs generalizing g with
  | nil => exact h
  | cons j rest ih =>
    unfold evictExcluded
    simp only [List.foldl_cons]
    by_cases hexcl : isExcludedFolder j.jobName = true
    · simp only [hexcl, if_true]
      exact ih _ (allValuesOne_delete _ _ h)
    · simp only [hexcl, if_false]
      exact ih _ h

theorem allValuesOne_collect_fold (envs : String → JobEnv) (jobs : List JobRow) :
    ∀ acc : List Sample × Catalogue, AllValuesOne acc.1 →
      AllValuesOne (jobs.foldl (collectStep envs) acc).1 := by
  induction jobs with
  | nil => exact fun acc h => h
  | cons j rest ih =>
    intro acc h
    simp only [List.foldl_cons]
    exact ih _ (allValuesOne_processJob (envs j.jobName) j acc.1 h)

/-- C7 counterexample: the gauge vector's label set is
`{job_name, check_commitID, gitBranch, status}`, not
`{job_path, check_commitID, gitBranch, status}` — the path-carrying label
is called `job_name` in the source. -/
theorem metricLabels_not_job_path :
    ¬ metricLabelNames = ["job_path", "check_commitID", "gitBranch", "status"] := by
  decide

/-- C7 amended: the core metric is the gauge vector named
`jenkins_build_last_result` whose label set is exactly
`{job_name, check_commitID, gitBranch, status}` (the path label is spelled
`job_name`), and every sample a Collector cycle leaves in the vector has
value 1.0 — the status is carried entirely in the label. -/
theorem metric_shape_amended (envs : String → JobEnv) (c : Catalogue)
    (g : List Sample) (h : AllValuesOne g) :
    metricName = "jenkins_build_last_result" ∧
    metricLabelNames = ["job_name", "check_commitID", "gitBranch", "status"] ∧
    AllValuesOne (collectOnce envs c g).1 := by
  refine ⟨rfl, rfl, ?_⟩
  unfold collectOnce
  exact allValuesOne_collect_fold _ _ _ (allValuesOne_evict _ _ h)

/-- A gateway environment answering every job with completed build 42,
SUCCESS, and two git parameters. -/
def witnessEnvs : String → JobEnv := fun _ =>
  ⟨.ok 42 "SUCCESS" false,
   .ok "SUCCESS" false [("gitBranch", "main"), ("check_commitID", "abc123")]⟩

/-- A one-row catalogue used to exercise the collector in witnesses. -/
def witnessCatalogue : Catalogue := ⟨[⟨"release/api", true, 0, some 1, 1⟩], []⟩

/-- Witness for the amended C7: one cycle over the one-row catalogue from
the empty gauge. -/
theorem metric_shape_amended_witness :
    metricName = "jenkins_build_last_result" ∧
    metricLabelNames = ["job_name", "check_commitID", "gitBranch", "status"] ∧
    AllValuesOne (collectOnce witnessEnvs witnessCatalogue []).1 :=
  metric_shape_amended witnessEnvs witnessCatalogue []
    (fun s hs => absurd hs (List.not_mem_nil s))

/-! ## Claim C2 — no resurrection of soft-deleted rows -/

/-- The catalogue rows carrying this `job_name` (the primary key makes this
a singleton or empty in any real database). -/
def rowsFor (jobName : String) (c : Catalogue) : List JobRow :=
  c.jobs.filter (fun r => r.jobName = jobName)

/-- The audit events carrying this `job_name`. -/
def changesFor (jobName : String) (c : Catalogue) : List ChangeEvent :=
  c.changes.filter (fun e => e.jobName = jobName)

/-- Filtering rows by name commutes with a name-preserving rewrite of every
row. -/
theorem filter_name_map (l : List JobRow) (f : JobRow → JobRow)
    (hf : ∀ r, (f r).jobName = r.jobName) (name : String) :
    (l.map f).filter (fun r => r.jobName = name)
      = (l.filter (fun r => r.jobName = name)).map f := by
  induction l with
  | nil => rfl
  | cons r rest ih =>
    simp only [List.map_cons, List.filter_cons, hf]
    by_cases hr : r.jobName = name
    · simp [hr, ih]
    · simp [hr, ih]

/-- The single row for a name carries that name. -/
theorem rowsFor_name (name : String) (c : Catalogue) (r : JobRow)
    (h : rowsFor name c = [r]) : r.jobName = name := by
  have hr : r ∈ rowsFor name c := by rw [h]; exact List.mem_singleton_self r
  unfold rowsFor at hr
  simpa using (List.mem_filter.mp hr).2

/-- A name with a row is reported present by `jobExistsInTx`. -/
theorem rowsFor_exists (name : String) (c : Catalogue) (r : JobRow)
    (h : rowsFor name c = [r]) : jobExists c name = true := by
  have hr : r ∈ rowsFor name c := by rw [h]; exact List.mem_singleton_self r
  unfold rowsFor at hr
  unfold jobExists
  rw [List.any_eq_true]
  exact ⟨r, (List.mem_filter.mp hr).1, by simp [rowsFor_name name c r h]⟩

/-- One observed name through the insert/touch loop: an existing row named
`name` is only ever touched (`last_sync_time`), never re-enabled, and no
audit event for `name` is appended. -/
theorem syncInsertStep_rows (now : Int) (name n : String) (c : Catalogue)
    (r : JobRow) (h : rowsFor name c = [r]) :
    rowsFor name (syncInsertStep now c n)
      = [if n = name then { r with lastSyncTime := some now } else r] ∧
    changesFor name (syncInsertStep now c n) = changesFor name c := by
  have hrname := rowsFor_name name c r h
  unfold syncInsertStep
  by_cases hn : n = name
  · subst hn
    rw [if_pos (rowsFor_exists n c r h)]
    refine ⟨?_, rfl⟩
    unfold rowsFor at h ⊢
    rw [filter_name_map _ _ (fun q => by split_ifs <;> rfl), h]
    simp [hrname]
  · by_cases hex : jobExists c n = true
    · rw [if_pos hex]
      refine ⟨?_, rfl⟩
      rw [if_neg hn]
      unfold rowsFor at h ⊢
      rw [filter_name_map _ _ (fun q => by split_ifs <;> rfl), h]
      have hx : ¬ r.jobName = n := by
        rw [hrname]; exact fun he => hn he.symm
      simp [hx]
    · rw [if_neg hex]
      constructor
      · rw [if_neg hn]
        unfold rowsFor at h ⊢
        rw [List.filter_append, h]
        simp [hn]
      · unfold changesFor
        rw [List.filter_append]
        simp [hn]

/-- The whole insert/touch loop on a name whose row exists: the row is
reused in place, `last_sync_time` is bumped exactly when the name was
observed, and no audit event for it is appended. -/
theorem syncInsert_foldl_rows (now : Int) (name : String) :
    ∀ (ns : List String) (c : Catalogue) (r : JobRow),
      rowsFor name c = [r] →
      rowsFor name (ns.foldl (syncInsertStep now) c)
        = [if name ∈ ns then { r with lastSyncTime := some now } else r] ∧
      changesFor name (ns.foldl (syncInsertStep now) c) = changesFor name c := by
  intro ns
  induction ns with
  | nil =>
    intro c r h
    simpa using h
  | cons n rest ih =>
    intro c r h
    obtain ⟨hrows, hchanges⟩ := syncInsertStep_rows now name n c r h
    simp only [List.foldl_cons]
    by_cases hn : n = name
    · rw [if_pos hn] at hrows
      obtain ⟨hrows₂, hchanges₂⟩ := ih _ _ hrows
      refine ⟨?_, hchanges₂.trans hchanges⟩
      rw [hrows₂]
      have hm : name ∈ n :: rest := by rw [hn]; exact List.mem_cons_self name rest
      simp only [hm, if_true]
      split_ifs <;> rfl
    · rw [if_neg hn] at hrows
      obtain ⟨hrows₂, hchanges₂⟩ := ih _ _ hrows
      refine ⟨?_, hchanges₂.trans hchanges⟩
      have hiff : name ∈ n :: rest ↔ name ∈ rest := by
        constructor
        · intro hm
          rcases List.mem_cons.mp hm with he | hm₂
          · exact absurd he.symm hn
          · exact hm₂
        · exact fun hm => List.mem_cons_of_mem n hm
      rw [if_congr hiff rfl rfl]
      exact hrows₂

/-- One previously enabled name through the soft-delete loop: when the
observed set contains `name`, the row named `name` and its audit events are
untouched. -/
theorem syncDeleteStep_rows (now : Int) (jobNames : List String)
    (name en : String) (c : Catalogue) (r : JobRow)
    (h : rowsFor name c = [r]) (hmem : jobNames.contains name = true) :
    rowsFor name (syncDeleteStep now jobNames c en) = [r] ∧
    changesFor name (syncDeleteStep now jobNames c en) = changesFor name c := by
  have hrname := rowsFor_name name c r h
  unfold syncDeleteStep
  by_cases hskip : jobNames.contains en = true
  · rw [if_pos hskip]
    exact ⟨h, rfl⟩
  · rw [if_neg hskip]
    have hen : ¬ en = name := fun he => hskip (he ▸ hmem)
    constructor
    · unfold rowsFor at h ⊢
      rw [filter_name_map _ _ (fun q => by split_ifs <;> rfl), h]
      have hx : ¬ r.jobName = en := by
        rw [hrname]; exact fun he => hen he.symm
      simp [hx]
    · unfold changesFor
      rw [List.filter_append]
      simp [hen]

/-- The whole soft-delete loop preserves the row and the audit events of
every observed name. -/
theorem syncDelete_foldl_rows (now : Int) (jobNames : List String)
    (name : String) (hmem : jobNames.contains name = true) :
    ∀ (existing : List String) (c : Catalogue) (r : JobRow),
      rowsFor name c = [r] →
      rowsFor name (existing.foldl (syncDeleteStep now jobNames) c) = [r] ∧
      changesFor name (existing.foldl (syncDeleteStep now jobNames) c)
        = changesFor name c := by
  intro existing
  induction existing with
  | nil => exact fun c r h => ⟨h, rfl⟩
  | cons en rest ih =>
    intro c r h
    obtain ⟨hrows, hchanges⟩ := syncDeleteStep_rows now jobNames name en c r h hmem
    obtain ⟨hrows₂, hchanges₂⟩ := ih _ _ hrows
    exact ⟨hrows₂, hchanges₂.trans hchanges⟩

/-- C2 amended: a `job_path` present in the catalogue with `enabled = 0`
that reappears in the observed set is NOT resurrected: `SyncJobs` reuses
the row but only bumps `last_sync_time`; `enabled` stays 0 and no fresh
`ADD` (nor any other) change event is emitted for that path. -/
theorem disabled_row_not_resurrected (now : Int) (names : List String)
    (c : Catalogue) (name : String) (r : JobRow)
    (hrow : rowsFor name c = [r]) (hdis : r.enabled = false)
    (hmem : names.contains name = true) :
    rowsFor name (syncJobs now names c) = [{ r with lastSyncTime := some now }] ∧
    (rowsFor name (syncJobs now names c)).all (fun q => q.enabled = false) = true ∧
    changesFor name (syncJobs now names c) = changesFor name c := by
  have hmem' : name ∈ names := List.elem_iff.mp hmem
  unfold syncJobs
  obtain ⟨hrows₁, hchanges₁⟩ := syncInsert_foldl_rows now name names c r hrow
  rw [if_pos hmem'] at hrows₁
  obtain ⟨hrows₂, hchanges₂⟩ :=
    syncDelete_foldl_rows now names name hmem
      ((listEnabledJobs c).map (fun q => q.jobName)) _ _ hrows₁
  refine ⟨hrows₂, ?_, hchanges₂.trans hchanges₁⟩
  rw [hrows₂]
  simp [hdis]

/-- A catalogue holding one soft-deleted row plus its audit history, for
the C2 counterexample. -/
def c2Catalogue : Catalogue :=
  ⟨[⟨"team-a", false, 5, some 1, 1⟩],
   [⟨"team-a", "ADD", 1⟩, ⟨"team-a", "DELETE", 2⟩]⟩

/-- C2 counterexample: syncing the observed set `{team-a}` against a
catalogue whose `team-a` row is soft-deleted leaves the row disabled with
only `last_sync_time` bumped and appends no event at all — in particular no
fresh `ADD` — contradicting resurrect-in-place. -/
theorem disabled_row_counterexample :
    (syncJobs 100 ["team-a"] c2Catalogue).jobs
      = [⟨"team-a", false, 5, some 100, 1⟩] ∧
    (syncJobs 100 ["team-a"] c2Catalogue).changes = c2Catalogue.changes ∧
    ¬ ((syncJobs 100 ["team-a"] c2Catalogue).jobs.any
        (fun r => r.jobName = "team-a" ∧ r.enabled = true) = true ∧
       (syncJobs 100 ["team-a"] c2Catalogue).changes.countP
        (fun e => e.jobName = "team-a" ∧ e.action = "ADD") = 2) := by
  decide

/-- Witness for the amended C2 on the concrete soft-deleted catalogue. -/
theorem disabled_row_not_resurrected_witness :
    rowsFor "team-a" (syncJobs 100 ["team-a"] c2Catalogue)
      = [{ (⟨"team-a", false, 5, some 1, 1⟩ : JobRow) with lastSyncTime := some 100 }] ∧
    (rowsFor "team-a" (syncJobs 100 ["team-a"] c2Catalogue)).all
      (fun q => q.enabled = false) = true ∧
    changesFor "team-a" (syncJobs 100 ["team-a"] c2Catalogue)
      = changesFor "team-a" c2Catalogue :=
  disabled_row_not_resurrected 100 ["team-a"] c2Catalogue "team-a"
    ⟨"team-a", false, 5, some 1, 1⟩ (by decide) rfl (by decide)

/-! ## Claim C9 — SyncJobs atomicity -/

/-- `jobExistsInTx` reads only the `jobs` table. -/
theorem jobExists_congr (c₁ c₂ : Catalogue) (h : c₁.jobs = c₂.jobs)
    (n : String) : jobExists c₁ n = jobExists c₂ n := by
  unfold jobExists
  rw [h]

/-- With every statement succeeding, the oracle-threaded insert/touch loop
computes exactly the all-effects fold. -/
theorem syncInsertRun_honest (now : Int) :
    ∀ (ns : List String) (c : Catalogue),
      syncInsertRun honestOracle now ns c
        = .ok (ns.foldl (syncInsertStep now) c) := by
  intro ns
  induction ns with
  | nil => intro c; rfl
  | cons n rest ih =>
    intro c
    unfold syncInsertRun
    rw [List.foldl_cons]
    by_cases hex : jobExists c n = true
    · rw [if_pos hex]
      have hstep : syncInsertStep now c n
          = ⟨c.jobs.map (fun r =>
              if r.jobName = n then { r with lastSyncTime := some now } else r),
             c.changes⟩ := by
        unfold syncInsertStep
        rw [if_pos hex]
      rw [hstep]
      simp only [ih]
      rfl
    · rw [if_neg hex]
      have hstep : syncInsertStep now c n
          = ⟨c.jobs ++ [⟨n, true, 0, some now, now⟩],
             c.changes ++ [⟨n, "ADD", now⟩]⟩ := by
        unfold syncInsertStep
        rw [if_neg hex]
      rw [hstep]
      simp only [ih]
      rfl

/-- With every statement succeeding, the oracle-threaded soft-delete loop
computes exactly the all-effects fold. -/
theorem syncDeleteRun_honest (now : Int) (jobNames : List String) :
    ∀ (existing : List String) (c : Catalogue),
      syncDeleteRun honestOracle now jobNames existing c
        = .ok (existing.foldl (syncDeleteStep now jobNames) c) := by
  intro existing
  induction existing with
  | nil => intro c; rfl
  | cons en rest ih =>
    intro c
    unfold syncDeleteRun
    rw [List.foldl_cons]
    by_cases hskip : jobNames.contains en = true
    · rw [if_pos hskip]
      have hstep : syncDeleteStep now jobNames c en = c := by
        unfold syncDeleteStep
        rw [if_pos hskip]
      rw [hstep]
      exact ih c
    · rw [if_neg hskip]
      have hstep : syncDeleteStep now jobNames c en
          = ⟨c.jobs.map (fun r =>
              if r.jobName = en then { r with enabled := false } else r),
             c.changes ++ [⟨en, "DELETE", now⟩]⟩ := by
        unfold syncDeleteStep
        rw [if_neg hskip]
      rw [hstep]
      simp only [ih]
      rfl

/-- With inserts and touches succeeding, the insert/touch loop commits and
its `jobs` table equals the all-effects fold's, whatever the audit
statements do. -/
theorem syncInsertRun_jobs (o : ExecOracle) (now : Int)
    (hins : ∀ n, o.insertFails n = false)
    (htouch : ∀ n, o.touchFails n = false) :
    ∀ (ns : List String) (c₁ c₂ : Catalogue), c₁.jobs = c₂.jobs →
      ∃ d, syncInsertRun o now ns c₁ = .ok d ∧
        d.jobs = (ns.foldl (syncInsertStep now) c₂).jobs := by
  intro ns
  induction ns with
  | nil =>
    intro c₁ c₂ h
    exact ⟨c₁, rfl, by simpa using h⟩
  | cons n rest ih =>
    intro c₁ c₂ h
    unfold syncInsertRun
    rw [jobExists_congr c₁ c₂ h n]
    simp only [htouch n, hins n, Bool.false_eq_true, if_false, List.foldl_cons]
    by_cases hex : jobExists c₂ n = true
    · simp only [hex, if_true]
      have hstep : (Catalogue.mk (c₁.jobs.map (fun r =>
          if r.jobName = n then { r with lastSyncTime := some now } else r))
            c₁.changes).jobs = (syncInsertStep now c₂ n).jobs := by
        unfold syncInsertStep
        rw [if_pos hex, h]
      exact ih _ _ hstep
    · simp only [hex, if_false]
      have hjobs : (c₁.jobs ++ [⟨n, true, 0, some now, now⟩])
          = (syncInsertStep now c₂ n).jobs := by
        unfold syncInsertStep
        rw [if_neg hex, h]
      by_cases haud : o.auditFails n "ADD" = true
      · simp only [haud, if_true]
        exact ih _ _ hjobs
      · simp only [haud, if_false]
        exact ih _ _ hjobs

/-- With soft-deletes succeeding, the soft-delete loop commits and its
`jobs` table equals the all-effects fold's, whatever the audit statements
do. -/
theorem syncDeleteRun_jobs (o : ExecOracle) (now : Int) (jobNames : List String)
    (hdel : ∀ n, o.softDeleteFails n = false) :
    ∀ (existing : List String) (c₁ c₂ : Catalogue), c₁.jobs = c₂.jobs →
      ∃ d, syncDeleteRun o now jobNames existing c₁ = .ok d ∧
        d.jobs = (existing.foldl (syncDeleteStep now jobNames) c₂).jobs := by
  intro existing
  induction existing with
  | nil =>
    intro c₁ c₂ h
    exact ⟨c₁, rfl, by simpa using h⟩
  | cons en rest ih =>
    intro c₁ c₂ h
    unfold syncDeleteRun
    simp only [hdel en, Bool.false_eq_true, if_false, List.foldl_cons]
    by_cases hskip : jobNames.contains en = true
    · simp only [hskip, if_true]
      have hstep : c₁.jobs = (syncDeleteStep now jobNames c₂ en).jobs := by
        unfold syncDeleteStep
        rw [if_pos hskip, h]
      exact ih _ _ hstep
    · simp only [hskip, if_false]
      have hjobs : (c₁.jobs.map (fun r =>
          if r.jobName = en then { r with enabled := false } else r))
            = (syncDeleteStep now jobNames c₂ en).jobs := by
        unfold syncDeleteStep
        rw [if_neg hskip, h]
      by_cases haud : o.auditFails en "DELETE" = true
      · simp only [haud, if_true]
        exact ih _ _ hjobs
      · simp only [haud, if_false]
        exact ih _ _ hjobs

/-- C9 amended: a `SyncJobs` call that returns an error leaves the
catalogue exactly as before (the deferred rollback); a call in which every
statement succeeds commits every insert, bump, soft-delete and audit append
together; and a failed audit-append statement alone does NOT roll the
transaction back — the call still commits with the full row effects, only
the failed audit rows missing. -/
theorem syncJobs_atomic_amended (o : ExecOracle) (now : Int)
    (names : List String) (c : Catalogue) :
    ((syncJobsRun o now names c).2 = false → (syncJobsRun o now names c).1 = c) ∧
    syncJobsRun honestOracle now names c = (syncJobs now names c, true) ∧
    (o.beginFails = false → o.listFails = false → o.commitFails = false →
      (∀ n, o.insertFails n = false) → (∀ n, o.touchFails n = false) →
      (∀ n, o.softDeleteFails n = false) →
      (syncJobsRun o now names c).2 = true ∧
      (syncJobsRun o now names c).1.jobs = (syncJobs now names c).jobs) := by
  refine ⟨?_, ?_, ?_⟩
  · unfold syncJobsRun
    dsimp only
    by_cases hb : o.beginFails = true
    · rw [if_pos hb]
      intro
      rfl
    · rw [if_neg hb]
      by_cases hl : o.listFails = true
      · rw [if_pos hl]
        intro
        rfl
      · rw [if_neg hl]
        rcases hI : syncInsertRun o now names c with e | d
        · intro
          rfl
        · dsimp only
          rcases hD : syncDeleteRun o now names
              ((listEnabledJobs c).map (fun r => r.jobName)) d with e₂ | d₂
          · rw [hD]
            intro
            rfl
          · rw [hD]
            dsimp only
            by_cases hc : o.commitFails = true
            · rw [if_pos hc]
              intro
              rfl
            · rw [if_neg hc]
              intro h
              exact Bool.noConfusion h
  · unfold syncJobsRun
    simp only [syncInsertRun_honest, syncDeleteRun_honest]
    rfl
  · intro hb hl hc hins htouch hdel
    obtain ⟨d, hI, hjobs⟩ :=
      syncInsertRun_jobs o now hins htouch names c c rfl
    obtain ⟨d₂, hD, hjobs₂⟩ :=
      syncDeleteRun_jobs o now names hdel
        ((listEnabledJobs c).map (fun r => r.jobName)) d
        (names.foldl (syncInsertStep now) c) hjobs
    unfold syncJobsRun
    simp only [hb, hl, hc, Bool.false_eq_true, if_false, hI, hD]
    exact ⟨trivial, hjobs₂⟩

/-- The oracle in which only the `ADD` audit insert for `team-a` fails. -/
def c9Oracle : ExecOracle :=
  { honestOracle with auditFails := fun n a => n = "team-a" && a = "ADD" }

/-- C9 counterexample: with the `ADD` audit insert failing for the newly
observed `team-a`, `SyncJobs` neither rolls back (the row insert commits)
nor commits every statement of the call (the audit append is missing), so
the call is not all-or-nothing over its full statement list. -/
theorem syncJobs_audit_failure_commits :
    syncJobsRun c9Oracle 0 ["team-a"] emptyCatalogue
      = (⟨[⟨"team-a", true, 0, some 0, 0⟩], []⟩, true) ∧
    ¬ (syncJobsRun c9Oracle 0 ["team-a"] emptyCatalogue
        = (syncJobs 0 ["team-a"] emptyCatalogue, true) ∨
       syncJobsRun c9Oracle 0 ["team-a"] emptyCatalogue
        = (emptyCatalogue, false)) := by
  decide

/-- Witness for the amended C9: a failing begin rolls back; the honest run
commits everything; the audit-only-failing run still commits with the same
rows. -/
theorem syncJobs_atomic_amended_witness :
    syncJobsRun honestOracle 7 ["a"] emptyCatalogue
      = (syncJobs 7 ["a"] emptyCatalogue, true) ∧
    (syncJobsRun c9Oracle 0 ["team-a"] emptyCatalogue).2 = true ∧
    (syncJobsRun c9Oracle 0 ["team-a"] emptyCatalogue).1.jobs
      = (syncJobs 0 ["team-a"] emptyCatalogue).jobs :=
  ⟨(syncJobs_atomic_amended honestOracle 7 ["a"] emptyCatalogue).2.1,
   ((syncJobs_atomic_amended c9Oracle 0 ["team-a"] emptyCatalogue).2.2
      rfl rfl rfl (fun _ => rfl) (fun _ => rfl) (fun _ => rfl)).1,
   ((syncJobs_atomic_amended c9Oracle 0 ["team-a"] emptyCatalogue).2.2
      rfl rfl rfl (fun _ => rfl) (fun _ => rfl) (fun _ => rfl)).2⟩

/-! ## Claim C4 — at most one gauge sample per job path -/

/-- Every `job_name` labels at most one sample of the gauge. -/
def PathsUnique (g : List Sample) : Prop := ∀ q, countFor q g ≤ 1

/-- `DeletePartialMatch` removes every sample of the matched name. -/
theorem countFor_delete_self (n : String) (g : List Sample) :
    countFor n (deletePartialMatch n g) = 0 := by
  unfold countFor deletePartialMatch
  induction g with
  | nil => rfl
  | cons s rest ih =>
    by_cases hs : s.jobName = n
    · simp [hs, ih]
    · simp [hs, ih]

/-- `DeletePartialMatch` leaves the samples of every other name alone. -/
theorem countFor_delete_other (q n : String) (g : List Sample) (h : ¬ q = n) :
    countFor q (deletePartialMatch n g) = countFor q g := by
  unfold countFor deletePartialMatch
  rw [List.filter_filter]
  congr 1
  apply List.filter_congr
  intro s _
  by_cases h2 : s.jobName = q
  · have h1 : ¬ s.jobName = n := by
      rw [h2]; exact h
    simp [h1, h2, h]
  · simp [h2]

/-- `WithLabelValues(...).Set` on a gauge with no sample of the tuple's
`job_name` is plain insertion. -/
theorem setSample_append (n a b st : String) (v : Int) (g : List Sample)
    (h : countFor n g = 0) :
    setSample n a b st v g = g ++ [⟨n, a, b, st, v⟩] := by
  unfold setSample
  rw [if_neg]
  intro hany
  rcases List.any_eq_true.mp hany with ⟨s, hs, hpred⟩
  have hsn : s.jobName = n := (of_decide_eq_true hpred).1
  have hnil : g.filter (fun t => t.jobName = n) = [] :=
    List.length_eq_zero.mp h
  have : s ∈ g.filter (fun t => t.jobName = n) :=
    List.mem_filter.mpr ⟨hs, by simp [hsn]⟩
  rw [hnil] at this
  cases this

/-- Appending one sample adds one to its own name's count only. -/
theorem countFor_append_one (q : String) (g : List Sample) (s : Sample) :
    countFor q (g ++ [s]) = countFor q g + (if s.jobName = q then 1 else 0) := by
  unfold countFor
  rw [List.filter_append, List.length_append]
  by_cases hs : s.jobName = q
  · simp [hs]
  · simp [hs]

/-- The delete-then-set critical section of `processJob` leaves exactly one
sample of the written `job_name` and exactly the old samples of every other
name. -/
theorem countFor_write (q n a b st : String) (v : Int) (g : List Sample) :
    countFor q (setSample n a b st v (deletePartialMatch n g))
      = if q = n then 1 else countFor q g := by
  rw [setSample_append n a b st v _ (countFor_delete_self n g),
    countFor_append_one]
  by_cases hq : q = n
  · rw [if_pos hq, hq, countFor_delete_self]
    simp
  · rw [if_neg hq, countFor_delete_other q n g hq,
      if_neg (fun he : n = q => hq he.symm), Nat.add_zero]

/-- `processJob` either leaves the gauge untouched or performs the one
delete-then-insert write for its job's name. -/
theorem processJob_gauge_cases (env : JobEnv) (j : JobRow) (g : List Sample) :
    (processJob env j g).1 = g ∨
    ∀ q, countFor q (processJob env j g).1
      = if q = j.jobName then 1 else countFor q g := by
  unfold processJob
  cases env.fetch with
  | canceled => exact .inl rfl
  | folderAuthErr => exact .inl rfl
  | otherErr => exact .inl rfl
  | noBuild => exact .inr fun q => countFor_write q j.jobName _ _ _ 1 g
  | ok bn baseResult baseBuilding =>
    cases env.details with
    | canceled => exact .inl rfl
    | ok result building params =>
      exact .inr fun q => countFor_write q j.jobName _ _ _ 1 g
    | err =>
      exact .inr fun q => countFor_write q j.jobName _ _ _ 1 g

/-- `processJob` preserves per-path uniqueness. -/
theorem pathsUnique_processJob (env : JobEnv) (j : JobRow) (g : List Sample)
    (h : PathsUnique g) : PathsUnique (processJob env j g).1 := by
  intro q
  rcases processJob_gauge_cases env j g with hc | hc
  · rw [hc]
    exact h q
  · rw [hc q]
    split_ifs
    · exact le_refl 1
    · exact h q

/-- The eviction pass preserves per-path uniqueness. -/
theorem pathsUnique_evict (jobs : List JobRow) (g : List Sample)
    (h : PathsUnique g) : PathsUnique (evictExcluded jobs g) := by
  induction jobs generalizing g with
  | nil => exact h
  | cons j rest ih =>
    unfold evictExcluded
    rw [List.foldl_cons]
    by_cases hexcl : isExcludedFolder j.jobName = true
    · rw [if_pos hexcl]
      refine ih _ (fun q => ?_)
      by_cases hq : q = j.jobName
      · rw [hq, countFor_delete_self]
        exact Nat.zero_le 1
      · rw [countFor_delete_other q j.jobName g hq]
        exact h q
    · rw [if_neg hexcl]
      exact ih _ h

/-- The per-job fold of a cycle preserves per-path uniqueness. -/
theorem pathsUnique_fold (envs : String → JobEnv) (jobs : List JobRow) :
    ∀ acc : List Sample × Catalogue, PathsUnique acc.1 →
      PathsUnique (jobs.foldl (collectStep envs) acc).1 := by
  induction jobs with
  | nil => exact fun acc h => h
  | cons j rest ih =>
    intro acc h
    rw [List.foldl_cons]
    exact ih _ (pathsUnique_processJob (envs j.jobName) j acc.1 h)

/-- C4: starting from a gauge with at most one sample per `job_path`, a
whole Collector cycle again leaves at most one sample per `job_path`; each
per-job write is one delete-all-then-insert-one critical section: after it
the written job has exactly one sample and every other `job_path` keeps
exactly the samples it had. -/
theorem collector_one_sample_per_path (envs : String → JobEnv)
    (c : Catalogue) (g : List Sample) (env : JobEnv) (j : JobRow)
    (q : String) (h : PathsUnique g) (hq : ¬ q = j.jobName) :
    PathsUnique (collectOnce envs c g).1 ∧
    ((processJob env j g).1 = g ∨
      countFor j.jobName (processJob env j g).1 = 1) ∧
    ((processJob env j g).1 = g ∨
      countFor q (processJob env j g).1 = countFor q g) := by
  refine ⟨?_, ?_, ?_⟩
  · unfold collectOnce
    exact pathsUnique_fold envs _ _ (pathsUnique_evict _ _ h)
  · rcases processJob_gauge_cases env j g with hc | hc
    · exact .inl hc
    · refine .inr ?_
      rw [hc j.jobName]
      simp
  · rcases processJob_gauge_cases env j g with hc | hc
    · exact .inl hc
    · refine .inr ?_
      rw [hc q, if_neg hq]

/-- Witness for C4: the cycle over the one-row catalogue from the empty
gauge, and a `not_built` write for one job. -/
theorem collector_one_sample_per_path_witness :
    PathsUnique (collectOnce witnessEnvs witnessCatalogue []).1 ∧
    ((processJob ⟨.noBuild, .err⟩ ⟨"release/api", true, 0, some 1, 1⟩ []).1 = [] ∨
      countFor "release/api"
        (processJob ⟨.noBuild, .err⟩ ⟨"release/api", true, 0, some 1, 1⟩ []).1 = 1) ∧
    ((processJob ⟨.noBuild, .err⟩ ⟨"release/api", true, 0, some 1, 1⟩ []).1 = [] ∨
      countFor "other"
        (processJob ⟨.noBuild, .err⟩ ⟨"release/api", true, 0, some 1, 1⟩ []).1
        = countFor "other" []) :=
  collector_one_sample_per_path witnessEnvs witnessCatalogue []
    ⟨.noBuild, .err⟩ ⟨"release/api", true, 0, some 1, 1⟩ "other"
    (fun q => by simp [countFor]) (by decide)

/-! ## Claim C8 — monotonicity of `last_seen_build` -/

/-- The `last_seen_build` of the (first) row of a name in a row list. -/
def lastSeenIn (name : String) (l : List JobRow) : Option Int :=
  (l.find? (fun r => r.jobName = name)).map (fun r => r.lastSeenBuild)

theorem getLastSeen_eq_lastSeenIn (name : String) (c : Catalogue) :
    getLastSeen name c = lastSeenIn name c.jobs := rfl

/-- A rewrite of every row that keeps names and cursors keeps
`lastSeenIn`. -/
theorem lastSeenIn_map (l : List JobRow) (f : JobRow → JobRow)
    (hf : ∀ r, (f r).jobName = r.jobName)
    (hseen : ∀ r, (f r).lastSeenBuild = r.lastSeenBuild) (name : String) :
    lastSeenIn name (l.map f) = lastSeenIn name l := by
  induction l with
  | nil => rfl
  | cons r rest ih =>
    unfold lastSeenIn at *
    rw [List.map_cons]
    by_cases hr : r.jobName = name
    · rw [List.find?_cons_of_pos _ (by simp [hf, hr]),
        List.find?_cons_of_pos _ (by simp [hr])]
      simp [hseen]
    · rw [List.find?_cons_of_neg _ (by simp [hf, hr]),
        List.find?_cons_of_neg _ (by simp [hr])]
      exact ih

/-- How `UpdateLastSeen`'s row rewrite acts on `lastSeenIn`. -/
theorem lastSeenIn_update (l : List JobRow) (n' : String) (bn : Int)
    (name : String) :
    lastSeenIn name (l.map (fun r =>
        if r.jobName = n' then { r with lastSeenBuild := bn } else r))
      = if n' = name then (lastSeenIn name l).map (fun _ => bn)
        else lastSeenIn name l := by
  induction l with
  | nil =>
    simp only [List.map_nil]
    split_ifs <;> rfl
  | cons r rest ih =>
    unfold lastSeenIn at *
    rw [List.map_cons]
    by_cases hr : r.jobName = name
    · have hhead : ((if r.jobName = n' then { r with lastSeenBuild := bn }
          else r) : JobRow).jobName = name := by
        split_ifs <;> exact hr
      rw [List.find?_cons_of_pos _ (by simp [hhead]),
        List.find?_cons_of_pos _ (by simp [hr])]
      by_cases hn : n' = name
      · have : r.jobName = n' := by rw [hr, hn]
        simp [this, hn]
      · have : ¬ r.jobName = n' := by
          rw [hr]; exact fun he => hn he.symm
        simp [this, hn]
    · have hhead : ¬ ((if r.jobName = n' then { r with lastSeenBuild := bn }
          else r) : JobRow).jobName = name := by
        split_ifs <;> exact hr
      rw [List.find?_cons_of_neg _ (by simp [hhead]),
        List.find?_cons_of_neg _ (by simp [hr])]
      exact ih

/-- How `UpdateLastSeen` acts on the cursor of any name. -/
theorem getLastSeen_update (c : Catalogue) (n' : String) (bn : Int)
    (name : String) :
    getLastSeen name (updateLastSeen n' bn c)
      = if n' = name then (getLastSeen name c).map (fun _ => bn)
        else getLastSeen name c := by
  rw [getLastSeen_eq_lastSeenIn, getLastSeen_eq_lastSeenIn]
  exact lastSeenIn_update c.jobs n' bn name

/-- Appending rows does not disturb the cursor of a present name. -/
theorem lastSeenIn_append_of_some (name : String) (l₁ l₂ : List JobRow)
    (v : Int) (h : lastSeenIn name l₁ = some v) :
    lastSeenIn name (l₁ ++ l₂) = some v := by
  unfold lastSeenIn at *
  rw [List.find?_append]
  rcases hf : l₁.find? (fun r => r.jobName = name) with _ | r
  · rw [hf] at h
    cases h
  · rw [hf] at h
    rw [hf]
    exact h

/-- In a catalogue whose names are unique, any member row's cursor is the
name's cursor. -/
theorem lastSeenIn_of_mem_nodup (l : List JobRow)
    (hnd : (l.map (fun r => r.jobName)).Nodup) (j : JobRow) (hj : j ∈ l) :
    lastSeenIn j.jobName l = some j.lastSeenBuild := by
  induction l with
  | nil => cases hj
  | cons r rest ih =>
    rw [List.map_cons, List.nodup_cons] at hnd
    rcases List.mem_cons.mp hj with rfl | hj₂
    · unfold lastSeenIn
      rw [List.find?_cons_of_pos _ (by simp)]
      rfl
    · have hne : ¬ r.jobName = j.jobName := by
        intro he
        exact hnd.1 (he ▸ List.mem_map_of_mem (fun q => q.jobName) hj₂)
      unfold lastSeenIn at *
      rw [List.find?_cons_of_neg _ (by simp [hne])]
      exact ih hnd.2 hj₂

/-- `jobExistsInTx` sees through a name-preserving row rewrite. -/
theorem jobExists_map (l : List JobRow) (ch ch₂ : List ChangeEvent)
    (f : JobRow → JobRow) (hf : ∀ r, (f r).jobName = r.jobName)
    (name : String) :
    jobExists ⟨l.map f, ch⟩ name = jobExists ⟨l, ch₂⟩ name := by
  unfold jobExists
  dsimp only
  induction l with
  | nil => rfl
  | cons r rest ih => simp [hf, ih]

/-- A present name's cursor survives one insert/touch step of `SyncJobs`:
the touch rewrites only `last_sync_time`, the insert only appends. -/
theorem lastSeen_syncInsertStep (now : Int) (n name : String) (c : Catalogue)
    (v : Int) (h : getLastSeen name c = some v) :
    getLastSeen name (syncInsertStep now c n) = some v := by
  unfold syncInsertStep
  by_cases hex : jobExists c n = true
  · rw [if_pos hex]
    rw [getLastSeen_eq_lastSeenIn] at h ⊢
    exact (lastSeenIn_map c.jobs _ (fun r => by split_ifs <;> rfl)
      (fun r => by split_ifs <;> rfl) name).trans h
  · rw [if_neg hex]
    rw [getLastSeen_eq_lastSeenIn] at h ⊢
    exact lastSeenIn_append_of_some name c.jobs _ v h

/-- A present name's cursor survives the whole insert/touch loop. -/
theorem lastSeen_syncInsert_fold (now : Int) (name : String) :
    ∀ (ns : List String) (c : Catalogue) (v : Int),
      getLastSeen name c = some v →
      getLastSeen name (ns.foldl (syncInsertStep now) c) = some v := by
  intro ns
  induction ns with
  | nil => exact fun c v h => h
  | cons n rest ih =>
    intro c v h
    rw [List.foldl_cons]
    exact ih _ v (lastSeen_syncInsertStep now n name c v h)

/-- A present name's cursor survives one soft-delete step (only `enabled`
is rewritten). -/
theorem lastSeen_syncDeleteStep (now : Int) (jobNames : List String)
    (en name : String) (c : Catalogue) (v : Int)
    (h : getLastSeen name c = some v) :
    getLastSeen name (syncDeleteStep now jobNames c en) = some v := by
  unfold syncDeleteStep
  by_cases hskip : jobNames.contains en = true
  · rw [if_pos hskip]
    exact h
  · rw [if_neg hskip]
    rw [getLastSeen_eq_lastSeenIn] at h ⊢
    exact (lastSeenIn_map c.jobs _ (fun r => by split_ifs <;> rfl)
      (fun r => by split_ifs <;> rfl) name).trans h

/-- A present name's cursor survives the whole soft-delete loop. -/
theorem lastSeen_syncDelete_fold (now : Int) (jobNames : List String)
    (name : String) :
    ∀ (existing : List String) (c : Catalogue) (v : Int),
      getLastSeen name c = some v →
      getLastSeen name (existing.foldl (syncDeleteStep now jobNames) c)
        = some v := by
  intro existing
  induction existing with
  | nil => exact fun c v h => h
  | cons en rest ih =>
    intro c v h
    rw [List.foldl_cons]
    exact ih _ v (lastSeen_syncDeleteStep now jobNames en name c v h)

/-- A present name's cursor survives a whole `SyncJobs` call unchanged. -/
theorem lastSeen_syncJobs (now : Int) (names : List String) (c : Catalogue)
    (name : String) (v : Int) (h : getLastSeen name c = some v) :
    getLastSeen name (syncJobs now names c) = some v := by
  unfold syncJobs
  exact lastSeen_syncDelete_fold now names name _ _ v
    (lastSeen_syncInsert_fold now name names c v h)

/-- A present name's cursor survives a whole Discovery sync unchanged. -/
theorem lastSeen_syncJobsOnce (now : Int) (names : List String)
    (c : Catalogue) (name : String) (v : Int)
    (h : getLastSeen name c = some v) :
    getLastSeen name (syncJobsOnce now names c) = some v := by
  unfold syncJobsOnce
  split_ifs
  · exact h
  · exact lastSeen_syncJobs now names c name v h

/-- An absent name stays absent through an insert/touch step for a
different observed name. -/
theorem jobExists_syncInsertStep_other (now : Int) (n name : String)
    (c : Catalogue) (hn : ¬ n = name) (habs : jobExists c name = false) :
    jobExists (syncInsertStep now c n) name = false := by
  unfold syncInsertStep
  by_cases hex : jobExists c n = true
  · rw [if_pos hex]
    rw [jobExists_map c.jobs c.changes c.changes _
      (fun r => by split_ifs <;> rfl) name]
    exact habs
  · rw [if_neg hex]
    unfold jobExists at habs ⊢
    dsimp only
    rw [List.any_append, habs]
    simp [hn]

/-- The insert/touch loop initialises a newly observed name's cursor to
0. -/
theorem lastSeen_insert_zero (now : Int) (name : String) :
    ∀ (ns : List String) (c : Catalogue),
      jobExists c name = false → name ∈ ns →
      getLastSeen name (ns.foldl (syncInsertStep now) c) = some 0 := by
  intro ns
  induction ns with
  | nil =>
    intro c _ hmem
    cases hmem
  | cons n rest ih =>
    intro c habs hmem
    rw [List.foldl_cons]
    by_cases hn : n = name
    · subst hn
      have hnone : c.jobs.find? (fun r => r.jobName = n) = none := by
        rw [List.find?_eq_none]
        intro x hx hpred
        unfold jobExists at habs
        have hany : (c.jobs.any fun r => decide (r.jobName = n)) = true :=
          List.any_eq_true.mpr ⟨x, hx, hpred⟩
        rw [habs] at hany
        exact Bool.noConfusion hany
      have hstep : getLastSeen n (syncInsertStep now c n) = some 0 := by
        unfold syncInsertStep
        rw [if_neg (by rw [habs]; exact Bool.noConfusion)]
        rw [getLastSeen_eq_lastSeenIn]
        unfold lastSeenIn
        dsimp only
        rw [List.find?_append, hnone, List.find?_cons_of_pos _ (by simp)]
        rfl
      exact lastSeen_syncInsert_fold now n rest _ 0 hstep
    · rcases List.mem_cons.mp hmem with he | hm
      · exact absurd he.symm hn
      · exact ih _ (jobExists_syncInsertStep_other now n name c hn habs) hm

/-- `SyncJobs` initialises a newly observed name's cursor to 0 (the
soft-delete loop then never touches cursors). -/
theorem syncJobs_insert_zero (now : Int) (names : List String)
    (c : Catalogue) (name : String) (habs : jobExists c name = false)
    (hmem : name ∈ names) :
    getLastSeen name (syncJobs now names c) = some 0 := by
  unfold syncJobs
  exact lastSeen_syncDelete_fold now names name _ _ 0
    (lastSeen_insert_zero now name names c habs hmem)

/-- `processJob` calls `UpdateLastSeen` only with a build number strictly
above the snapshot row's `last_seen_build`. -/
theorem processJob_update_gt (env : JobEnv) (j : JobRow) (g : List Sample)
    (bn : Int) (h : (processJob env j g).2 = some bn) :
    j.lastSeenBuild < bn := by
  unfold processJob at h
  cases hf : env.fetch with
  | canceled =>
    rw [hf] at h
    exact Option.noConfusion h
  | folderAuthErr =>
    rw [hf] at h
    exact Option.noConfusion h
  | otherErr =>
    rw [hf] at h
    exact Option.noConfusion h
  | noBuild =>
    rw [hf] at h
    exact Option.noConfusion h
  | ok bnF baseResult baseBuilding =>
    rw [hf] at h
    cases hd : env.details with
    | canceled =>
      rw [hd] at h
      exact Option.noConfusion h
    | ok result building params =>
      rw [hd] at h
      unfold processJobWrite at h
      dsimp only at h
      split_ifs at h with hgt
      rw [← Option.some_inj.mp h]
      exact hgt
    | err =>
      rw [hd] at h
      unfold processJobWrite at h
      dsimp only at h
      split_ifs at h with hgt
      rw [← Option.some_inj.mp h]
      exact hgt

/-- Folding a cycle's jobs over a catalogue never lowers the cursor of a
name whose snapshot value is `v`: every `UpdateLastSeen` a job triggers
writes a build number above its snapshot cursor. -/
theorem collect_fold_lastSeen (envs : String → JobEnv) (name : String)
    (v : Int) :
    ∀ snapshot : List JobRow,
      (∀ j ∈ snapshot, j.jobName = name → j.lastSeenBuild = v) →
      ∀ (acc : List Sample × Catalogue) (u : Int),
        getLastSeen name acc.2 = some u → v ≤ u →
        ∃ w, getLastSeen name (snapshot.foldl (collectStep envs) acc).2
          = some w ∧ v ≤ w := by
  intro snapshot
  induction snapshot with
  | nil =>
    intro _ acc u hu hvu
    exact ⟨u, hu, hvu⟩
  | cons j rest ih =>
    intro hsnap acc u hu hvu
    rw [List.foldl_cons]
    have hsub : ∀ j' ∈ rest, j'.jobName = name → j'.lastSeenBuild = v :=
      fun j' hj' => hsnap j' (List.mem_cons_of_mem j hj')
    rcases hupd : (processJob (envs j.jobName) j acc.1).2 with _ | bn
    · have hcat : (collectStep envs acc j).2 = acc.2 := by
        unfold collectStep
        dsimp only
        rw [hupd]
      exact ih hsub _ u (by rw [hcat]; exact hu) hvu
    · have hcat : (collectStep envs acc j).2
          = updateLastSeen j.jobName bn acc.2 := by
        unfold collectStep
        dsimp only
        rw [hupd]
      by_cases hj : j.jobName = name
      · have hlt : j.lastSeenBuild < bn := processJob_update_gt _ _ _ _ hupd
        have hv' : j.lastSeenBuild = v := hsnap j (List.mem_cons_self j rest) hj
        have hnew : getLastSeen name (collectStep envs acc j).2 = some bn := by
          rw [hcat, getLastSeen_update, if_pos hj, hu]
          rfl
        exact ih hsub _ bn hnew (le_of_lt (hv' ▸ hlt))
      · have hnew : getLastSeen name (collectStep envs acc j).2 = some u := by
          rw [hcat, getLastSeen_update, if_neg hj]
          exact hu
        exact ih hsub _ u hnew hvu

/-- A name-preserving row rewrite keeps the name list itself. -/
theorem namesOf_map (l : List JobRow) (f : JobRow → JobRow)
    (hf : ∀ r, (f r).jobName = r.jobName) :
    (l.map f).map (fun r => r.jobName) = l.map (fun r => r.jobName) := by
  induction l with
  | nil => rfl
  | cons r rest ih => simp [hf, ih]

/-- The primary-key invariant survives one insert/touch step. -/
theorem nodup_syncInsertStep (now : Int) (n : String) (c : Catalogue)
    (h : NamesNodup c) : NamesNodup (syncInsertStep now c n) := by
  unfold syncInsertStep
  by_cases hex : jobExists c n = true
  · rw [if_pos hex]
    unfold NamesNodup at *
    dsimp only
    rw [namesOf_map _ _ (fun r => by split_ifs <;> rfl)]
    exact h
  · rw [if_neg hex]
    unfold NamesNodup at *
    dsimp only
    rw [List.map_append, List.nodup_append]
    refine ⟨h, List.nodup_singleton n, ?_⟩
    intro a ha hb
    rw [List.map_singleton] at hb
    rw [List.mem_singleton.mp hb] at ha
    rcases List.mem_map.mp ha with ⟨r, hr, hrn⟩
    exact hex (List.any_eq_true.mpr ⟨r, hr, by simp [hrn]⟩)

/-- The primary-key invariant survives the insert/touch loop. -/
theorem nodup_syncInsert_fold (now : Int) :
    ∀ (ns : List String) (c : Catalogue), NamesNodup c →
      NamesNodup (ns.foldl (syncInsertStep now) c) := by
  intro ns
  induction ns with
  | nil => exact fun c h => h
  | cons n rest ih =>
    intro c h
    rw [List.foldl_cons]
    exact ih _ (nodup_syncInsertStep now n c h)

/-- The primary-key invariant survives one soft-delete step. -/
theorem nodup_syncDeleteStep (now : Int) (jobNames : List String)
    (en : String) (c : Catalogue) (h : NamesNodup c) :
    NamesNodup (syncDeleteStep now jobNames c en) := by
  unfold syncDeleteStep
  by_cases hskip : jobNames.contains en = true
  · rw [if_pos hskip]
    exact h
  · rw [if_neg hskip]
    unfold NamesNodup at *
    dsimp only
    rw [namesOf_map _ _ (fun r => by split_ifs <;> rfl)]
    exact h

/-- The primary-key invariant survives the soft-delete loop. -/
theorem nodup_syncDelete_fold (now : Int) (jobNames : List String) :
    ∀ (existing : List String) (c : Catalogue), NamesNodup c →
      NamesNodup (existing.foldl (syncDeleteStep now jobNames) c) := by
  intro existing
  induction existing with
  | nil => exact fun c h => h
  | cons en rest ih =>
    intro c h
    rw [List.foldl_cons]
    exact ih _ (nodup_syncDeleteStep now jobNames en c h)

/-- The primary-key invariant survives a whole Discovery sync. -/
theorem nodup_syncJobsOnce (now : Int) (names : List String) (c : Catalogue)
    (h : NamesNodup c) : NamesNodup (syncJobsOnce now names c) := by
  unfold syncJobsOnce syncJobs
  split_ifs
  · exact h
  · exact nodup_syncDelete_fold now names _ _ (nodup_syncInsert_fold now names c h)

/-- The primary-key invariant survives the per-job fold of a Collector
cycle. -/
theorem nodup_collect_fold (envs : String → JobEnv) :
    ∀ (snapshot : List JobRow) (acc : List Sample × Catalogue),
      NamesNodup acc.2 → NamesNodup (snapshot.foldl (collectStep envs) acc).2 := by
  intro snapshot
  induction snapshot with
  | nil => exact fun acc h => h
  | cons j rest ih =>
    intro acc h
    rw [List.foldl_cons]
    rcases hupd : (processJob (envs j.jobName) j acc.1).2 with _ | bn
    · refine ih _ ?_
      have hcat : (collectStep envs acc j).2 = acc.2 := by
        unfold collectStep
        dsimp only
        rw [hupd]
      rw [hcat]
      exact h
    · refine ih _ ?_
      have hcat : (collectStep envs acc j).2
          = updateLastSeen j.jobName bn acc.2 := by
        unfold collectStep
        dsimp only
        rw [hupd]
      rw [hcat]
      unfold updateLastSeen NamesNodup at *
      dsimp only
      rw [namesOf_map _ _ (fun r => by split_ifs <;> rfl)]
      exact h

/-- The primary-key invariant survives every catalogue-writing operation. -/
theorem stepOp_nodup (op : Op) (c : Catalogue) (h : NamesNodup c) :
    NamesNodup (stepOp c op) := by
  cases op with
  | discover now observed => exact nodup_syncJobsOnce now _ c h
  | collect envs =>
    unfold stepOp collectOnce
    dsimp only
    exact nodup_collect_fold envs _ _ h

/-- No catalogue-writing operation lowers a present cursor. -/
theorem stepOp_lastSeen_mono (op : Op) (c : Catalogue) (name : String)
    (v : Int) (hnd : NamesNodup c) (hv : getLastSeen name c = some v) :
    ∃ w, getLastSeen name (stepOp c op) = some w ∧ v ≤ w := by
  cases op with
  | discover now observed =>
    exact ⟨v, lastSeen_syncJobsOnce now _ c name v hv, le_refl v⟩
  | collect envs =>
    unfold stepOp collectOnce
    dsimp only
    refine collect_fold_lastSeen envs name v _ ?_ _ v hv (le_refl v)
    intro j hj hjname
    have hj₂ : j ∈ c.jobs :=
      List.mem_of_mem_filter (List.mem_of_mem_filter hj)
    have hmem := lastSeenIn_of_mem_nodup c.jobs hnd j hj₂
    rw [hjname, ← getLastSeen_eq_lastSeenIn, hv] at hmem
    exact (Option.some_inj.mp hmem).symm

/-- Along any trace of Discovery and Collector operations, a present
cursor never decreases. -/
theorem runOps_lastSeen_mono (ops : List Op) :
    ∀ (c : Catalogue) (name : String) (v : Int), NamesNodup c →
      getLastSeen name c = some v →
      ∃ w, getLastSeen name (runOps c ops) = some w ∧ v ≤ w := by
  induction ops with
  | nil => exact fun c name v _ hv => ⟨v, hv, le_refl v⟩
  | cons op rest ih =>
    intro c name v hnd hv
    obtain ⟨u, hu, hvu⟩ := stepOp_lastSeen_mono op c name v hnd hv
    obtain ⟨w, hw, huw⟩ := ih (stepOp c op) name u (stepOp_nodup op c hnd) hu
    exact ⟨w, hw, le_trans hvu huw⟩

/-- C8: across the process lifetime — any interleaving of Discovery syncs
and Collector cycles, the only catalogue writers — `last_seen_build` never
decreases for any `job_path` (given the primary-key invariant): it is
initialised to 0 when `SyncJobs` first inserts the path, and the Collector
calls `UpdateLastSeen` only with a build number strictly greater than the
snapshot cursor it read at cycle start. -/
theorem lastSeen_monotone (ops : List Op) (c c₂ : Catalogue)
    (name name₂ : String) (v w now : Int) (names : List String)
    (env : JobEnv) (j : JobRow) (g : List Sample) (n : Int)
    (hnd : NamesNodup c)
    (hv : getLastSeen name c = some v)
    (hw : getLastSeen name (runOps c ops) = some w)
    (habs : jobExists c₂ name₂ = false)
    (hmem : name₂ ∈ names)
    (hupd : (processJob env j g).2 = some n) :
    v ≤ w ∧
    getLastSeen name₂ (syncJobs now names c₂) = some 0 ∧
    j.lastSeenBuild < n := by
  obtain ⟨u, hu, hvu⟩ := runOps_lastSeen_mono ops c name v hnd hv
  rw [hw] at hu
  exact ⟨(Option.some_inj.mp hu) ▸ hvu,
    syncJobs_insert_zero now names c₂ name₂ habs hmem,
    processJob_update_gt env j g n hupd⟩

/-- Witness for C8: a trace of one Discovery sync and one Collector cycle
over a one-row catalogue raises the cursor from 3 to 42; a fresh insert
gets cursor 0; and the concrete `processJob` update is strictly above the
snapshot cursor. -/
theorem lastSeen_monotone_witness :
    (3 : Int) ≤ 42 ∧
    getLastSeen "b" (syncJobs 9 ["b"] emptyCatalogue) = some 0 ∧
    (⟨"a", true, 3, none, 0⟩ : JobRow).lastSeenBuild < 42 :=
  lastSeen_monotone
    [.discover 5 [⟨"a", false⟩],
     .collect (fun _ => ⟨.ok 42 "SUCCESS" false, .err⟩)]
    ⟨[⟨"a", true, 3, none, 0⟩], []⟩ emptyCatalogue "a" "b" 3 42 9 ["b"]
    ⟨.ok 42 "SUCCESS" false, .err⟩ ⟨"a", true, 3, none, 0⟩ [] 42
    (by unfold NamesNodup; decide) (by decide) (by decide) (by decide)
    (by decide) (by decide)

end JenkinsExport
